import Mathlib

/-!
Shallow embedding of the `stack_set` repository: the `StackSet` container of
`src/lib.rs` (an open-addressing hash table that also encodes stack order via
per-slot predecessor indices) and the `has_cycle` routine of `src/main.rs`.

Rust panics (out-of-bounds indexing, `unwrap` of `None`, the explicit empty-pop
panic) are modelled by `Option`-valued operations returning `none`.  The
`DefaultHasher` is modelled by an explicit `hashFn : T → Nat` parameter giving
the hasher output for each key; the source reduces it modulo the table length.
-/

set_option maxHeartbeats 1000000
set_option linter.unusedSectionVars false
set_option linter.unusedVariables false

/-- Trial-division primality test; executable helper for `next_prime`. -/
def isPrime (n : Nat) : Bool :=
  decide (2 ≤ n) && (List.range (n - 2)).all fun i => decide (n % (i + 2) ≠ 0)

/-- Linear search for the first prime at or after candidate `c`, with fuel `f`;
returns `c + f` if no prime is found within the fuel. -/
def nextPrimeGo : Nat → Nat → Nat
  | 0, c => c
  | f + 1, c => if isPrime c then c else nextPrimeGo f (c + 1)

/-- Modelled from the spec: the external `next_prime` crate used by
`StackSet::resize` is not part of this repository; per the spec the new
capacity is the "smallest prime strictly greater than" the argument, so
`next_prime n` searches upward from `n + 1`.  Fuel `n` suffices by Bertrand's
postulate (for `n ≥ 1` a prime exists in `(n, 2n]`), proved below. -/
def next_prime (n : Nat) : Nat := nextPrimeGo n (n + 1)

/-- Rust `Vec<Option<(T, Option<usize>)>>`, the backing table of the container:
each slot is empty or holds a key and the optional index of the slot below it
in stack order. -/
abbrev Table (T : Type) := List (Option (T × Option Nat))

/-- Rust struct `StackSet<T>` from src/lib.rs. -/
structure StackSet (T : Type) where
  top_index : Option Nat
  count : Nat
  capacity : Nat
  table : Table T

namespace StackSet

variable {T : Type} [DecidableEq T]

/-- Rust `INITIAL_CAPACITY`. -/
def INITIAL_CAPACITY : Nat := 11

/-- Rust `StackSet::new`: empty container with 11 empty slots. -/
def new : StackSet T :=
  { top_index := none, count := 0, capacity := INITIAL_CAPACITY,
    table := List.replicate INITIAL_CAPACITY none }

/-- Rust `StackSet::is_empty`. -/
def is_empty (s : StackSet T) : Bool := s.top_index.isNone

/-- Rust `StackSet::top`.  The outer `Option` is `none` when the source would
panic (out-of-bounds index or `unwrap` of an empty slot); `some none` is the
regular empty-stack return value `None`. -/
def top (s : StackSet T) : Option (Option T) :=
  match s.top_index with
  | none => some none
  | some i =>
    match s.table[i]? with
    | some (some e) => some (some e.1)
    | _ => none

/-- Rust `StackSet::pop`: `none` models the panic paths (the explicit
empty-container panic, or the indexing/`unwrap` panics on a corrupt state).
On success it returns the popped key and the new state: the top slot is
cleared and `top_index` moves to the stored predecessor.  Note the source
does not decrement `count`. -/
def pop (s : StackSet T) : Option (T × StackSet T) :=
  match s.top_index with
  | none => none
  | some i =>
    match s.table[i]? with
    | some (some (k, pred)) =>
      some (k, { s with table := s.table.set i none, top_index := pred })
    | _ => none

/-- Rust `StackSet::resize`: computes the next prime above twice the capacity
and extends the table with that many-minus-capacity empty slots.  The source
does not rehash or move any existing entry. -/
def resize (s : StackSet T) : StackSet T :=
  { s with
    table := s.table ++ List.replicate (next_prime (s.capacity * 2) - s.capacity) none,
    capacity := next_prime (s.capacity * 2) }

/-- The probe loop shared by Rust `StackSet::push_at`
(`while self.table[hash] != None { hash += offset; offset += 2 }`, with
`offset = 2*j + 1` at step `j`): returns the first empty slot index along the
quadratic probe sequence, or `none` for the source's out-of-bounds indexing
panic.  `gas` only bounds the recursion: it starts at `table.length` and the
invariant `table.length - hash ≤ gas` holds throughout (the index grows by at
least 1 per step), so the `0` case with an occupied slot — which requires
`hash < table.length` — is unreachable; `probeGo_gas_irrel` below proves the
result does not depend on `gas` above this threshold. -/
def probeGo (table : Table T) : Nat → Nat → Nat → Option Nat
  | gas, hash, j =>
    match table[hash]?, gas with
    | none, _ => none
    | some none, _ => some hash
    | some (some _), 0 => none
    | some (some _), g + 1 => probeGo table g (hash + (2 * j + 1)) (j + 1)

/-- Entry point of the probe loop: offset starts at 1 (`j = 0`). -/
def probe (table : Table T) (hash : Nat) : Option Nat :=
  probeGo table table.length hash 0

/-- Rust `StackSet::hash`: hasher output reduced modulo `self.table.len()`. -/
def hash (hashFn : T → Nat) (s : StackSet T) (key : T) : Nat :=
  hashFn key % s.table.length

/-- Rust `StackSet::push_at`: probe for an empty slot, write the key there
with the old `top_index` as predecessor, point `top_index` at the slot,
increment `count`, then resize when `count >= capacity / 2` (checked after the
increment).  `none` models the out-of-bounds panic in the probe loop. -/
def push_at (s : StackSet T) (hash : Nat) (key : T) : Option (StackSet T) :=
  match probe s.table hash with
  | none => none
  | some i =>
    let s' : StackSet T :=
      { top_index := some i, count := s.count + 1, capacity := s.capacity,
        table := s.table.set i (some (key, s.top_index)) }
    some (if s'.capacity / 2 ≤ s'.count then s'.resize else s')

/-- Rust `StackSet::push`. -/
def push (hashFn : T → Nat) (s : StackSet T) (key : T) : Option (StackSet T) :=
  s.push_at (hash hashFn s key) key

/-- The probe loop of Rust `StackSet::contains`, with the same gas discipline
as `probeGo`: stops with `false` at the first empty slot, with `true` when the
probed slot holds the key, and `none` models the out-of-bounds indexing
panic. -/
def containsGo (table : Table T) (key : T) : Nat → Nat → Nat → Option Bool
  | gas, hash, j =>
    match table[hash]?, gas with
    | none, _ => none
    | some none, _ => some false
    | some (some e), g + 1 =>
      if e.1 = key then some true else containsGo table key g (hash + (2 * j + 1)) (j + 1)
    | some (some e), 0 => if e.1 = key then some true else none

/-- Rust `StackSet::contains`. -/
def contains (hashFn : T → Nat) (s : StackSet T) (key : T) : Option Bool :=
  containsGo s.table key s.table.length (hash hashFn s key) 0

/-- Pushes the keys in order; `none` if any push panics. -/
def pushList (hashFn : T → Nat) : StackSet T → List T → Option (StackSet T)
  | s, [] => some s
  | s, k :: ks =>
    match push hashFn s k with
    | none => none
    | some s' => pushList hashFn s' ks

/-- Pops `n` times, collecting the returned keys in order; `none` if any pop
panics. -/
def popN : StackSet T → Nat → Option (List T × StackSet T)
  | s, 0 => some ([], s)
  | s, n + 1 =>
    match pop s with
    | none => none
    | some (k, s') =>
      match popN s' n with
      | none => none
      | some (ks, s'') => some (k :: ks, s'')

/-- Number of occupied slots of a table. -/
def countOccupied (table : Table T) : Nat := (table.filter fun o => o.isSome).length

/-- Spec-side definition, used only to compare the source's `resize` against
the spec's description of it (a full rehash): a fresh container of the given
capacity, exactly as `new` but with `cap` in place of 11. -/
def mkEmpty (cap : Nat) : StackSet T :=
  { top_index := none, count := 0, capacity := cap, table := List.replicate cap none }

/-- The stack chain: `Chain table t il` says that starting from
`top_index = t` and following `predecessor` links visits exactly the
(index, key) pairs of `il`, each an occupied slot, ending at `none`, and each
visited index is distinct from all the later ones. -/
inductive Chain : Table T → Option Nat → List (Nat × T) → Prop where
  | nil (table : Table T) : Chain table none []
  | cons {table : Table T} {i : Nat} {k : T} {pred : Option Nat} {l : List (Nat × T)}
      (hslot : table[i]? = some (some (k, pred)))
      (hrest : Chain table pred l)
      (hfresh : ∀ p ∈ l, p.1 ≠ i) :
      Chain table (some i) ((i, k) :: l)

/-- Container states reachable from `new` by successful pushes and pops, for a
fixed hasher. -/
inductive Reachable (hashFn : T → Nat) : StackSet T → Prop where
  | base : Reachable hashFn StackSet.new
  | push_step {s s' : StackSet T} {k : T} :
      Reachable hashFn s → push hashFn s k = some s' → Reachable hashFn s'
  | pop_step {s s' : StackSet T} {k : T} :
      Reachable hashFn s → pop s = some (k, s') → Reachable hashFn s'

end StackSet

/-- Rust `Graph` from src/main.rs: a vertex count and adjacency lists. -/
structure Graph where
  vertices : Nat
  edges : List (List Nat)

open StackSet in
/-- The inner `for neighbor in neighbors` loop of Rust `has_cycle`:
`none` models a panic inside `contains` or `push`; `some none` means the
function returned `true` (a neighbor already on the stack: cycle found);
`some (some st)` means the loop finished with the updated stack. -/
def processNeighbors (hashFn : Nat → Nat) : StackSet Nat → List Nat → Option (Option (StackSet Nat))
  | st, [] => some (some st)
  | st, n :: ns =>
    match contains hashFn st n with
    | none => none
    | some true => some none
    | some false =>
      match push hashFn st n with
      | none => none
      | some st' => processNeighbors hashFn st' ns

open StackSet in
/-- The `while !stack.is_empty()` loop of Rust `has_cycle`.  One fuel unit is
one loop iteration; `none` means a panic occurred or the loop was still
running when the fuel ran out.  Note the source marks `seen` before the
neighbor loop, never pops, and `continue`s (leaving the state unchanged) when
the top vertex is already seen. -/
def hasCycleGo (hashFn : Nat → Nat) (g : Graph) : Nat → StackSet Nat → List Bool → Option Bool
  | 0, _, _ => none
  | fuel + 1, st, seen =>
    if st.is_empty then some false
    else
      match top st with
      | some (some current) =>
        match seen[current]? with
        | none => none
        | some true => hasCycleGo hashFn g fuel st seen
        | some false =>
          match g.edges[current]? with
          | none => none
          | some neighbors =>
            match processNeighbors hashFn st neighbors with
            | none => none
            | some none => some true
            | some (some st') => hasCycleGo hashFn g fuel st' (seen.set current true)
      | _ => none

open StackSet in
/-- Rust `has_cycle` from src/main.rs, with the hasher modelled by `hashFn`
and the while loop bounded by `fuel`: returns `false` immediately on a
0-vertex graph, otherwise pushes vertex 0 and runs the loop. -/
def has_cycle (hashFn : Nat → Nat) (fuel : Nat) (g : Graph) : Option Bool :=
  if g.vertices = 0 then some false
  else
    match push hashFn StackSet.new 0 with
    | none => none
    | some st => hasCycleGo hashFn g fuel st (List.replicate g.vertices false)

/-- The container produced by `push (fun k => k) StackSet.new 0`: key 0 sits in
slot 0 with no predecessor.  A sample reachable state used by witnesses. -/
def sOne : StackSet Nat :=
  { top_index := some 0, count := 1, capacity := 11,
    table := [some (0, none), none, none, none, none, none, none, none, none, none, none] }

/-- The container produced by pushing 0, 1, 2 into a fresh container with the
identity hasher: keys in slots 0, 1, 2, chained bottom-to-top. -/
def sThree : StackSet Nat :=
  { top_index := some 2, count := 3, capacity := 11,
    table := [some (0, none), some (1, some 0), some (2, some 1),
      none, none, none, none, none, none, none, none] }

/-- The 1-vertex graph with no edges. -/
def oneVertexGraph : Graph := { vertices := 1, edges := [[]] }

namespace StackSet

variable {T : Type} [DecidableEq T]

theorem probeGo_empty {table : Table T} :
    ∀ gas hash j i, probeGo table gas hash j = some i → table[i]? = some none := by
  intro gas
  induction gas with
  | zero =>
    intro hash j i h
    unfold probeGo at h
    match hh : table[hash]? with
    | none => rw [hh] at h; exact absurd h (by simp)
    | some none => rw [hh] at h; simp at h; subst h; exact hh
    | some (some e) => rw [hh] at h; exact absurd h (by simp)
  | succ g ih =>
    intro hash j i h
    unfold probeGo at h
    match hh : table[hash]? with
    | none => rw [hh] at h; exact absurd h (by simp)
    | some none => rw [hh] at h; simp at h; subst h; exact hh
    | some (some e) => rw [hh] at h; exact ih _ _ _ h

theorem probeGo_gas_irrel (table : Table T) :
    ∀ gas₁ gas₂ hash j, table.length - hash ≤ gas₁ → table.length - hash ≤ gas₂ →
      probeGo table gas₁ hash j = probeGo table gas₂ hash j := by
  intro gas₁
  induction gas₁ with
  | zero =>
    intro gas₂ hash j h₁ h₂
    have hh : table[hash]? = none := List.getElem?_eq_none (by omega)
    cases gas₂ with
    | zero => rfl
    | succ g₂ => unfold probeGo; rw [hh]
  | succ g₁ ih =>
    intro gas₂ hash j h₁ h₂
    match hh : table[hash]? with
    | none => cases gas₂ <;> (unfold probeGo; rw [hh])
    | some none => cases gas₂ <;> (unfold probeGo; rw [hh])
    | some (some e) =>
      have hlt : hash < table.length := by
        obtain ⟨hl, -⟩ := List.getElem?_eq_some.mp hh
        exact hl
      cases gas₂ with
      | zero => omega
      | succ g₂ =>
        unfold probeGo
        rw [hh]
        exact ih g₂ (hash + (2 * j + 1)) (j + 1) (by omega) (by omega)

theorem Chain.occupied {table : Table T} {t : Option Nat} {il : List (Nat × T)}
    (h : Chain table t il) : ∀ p ∈ il, ∃ pr, table[p.1]? = some (some (p.2, pr)) := by
  induction h with
  | nil => intro p hp; simp at hp
  | @cons i k pred l hslot hrest hfresh ih =>
    intro p hp
    rcases List.mem_cons.mp hp with hp | hp
    · subst hp; exact ⟨pred, hslot⟩
    · exact ih p hp

theorem Chain.set_of_notmem {table : Table T} {t : Option Nat} {il : List (Nat × T)}
    (h : Chain table t il) (v : Option (T × Option Nat)) {j : Nat} :
    (∀ p ∈ il, p.1 ≠ j) → Chain (table.set j v) t il := by
  induction h with
  | nil => intro _; exact Chain.nil _
  | @cons i k pred l hslot hrest hfresh ih =>
    intro hj
    refine Chain.cons ?_ (ih fun p hp => hj p (List.mem_cons_of_mem _ hp)) hfresh
    rw [List.getElem?_set_ne (Ne.symm (hj (i, k) (List.mem_cons_self _ _)))]
    exact hslot

theorem Chain.append {table : Table T} {t : Option Nat} {il : List (Nat × T)}
    (h : Chain table t il) (ext : Table T) : Chain (table ++ ext) t il := by
  induction h with
  | nil => exact Chain.nil _
  | @cons i k pred l hslot hrest hfresh ih =>
    refine Chain.cons ?_ ih hfresh
    have hlt : i < table.length := by
      obtain ⟨hl, -⟩ := List.getElem?_eq_some.mp hslot
      exact hl
    rw [List.getElem?_append_left hlt]
    exact hslot

theorem nextPrimeGo_ge : ∀ f c, c ≤ nextPrimeGo f c := by
  intro f
  induction f with
  | zero => intro c; exact le_refl c
  | succ g ih =>
    intro c
    unfold nextPrimeGo
    by_cases h : isPrime c
    · rw [if_pos h]
    · rw [if_neg h]; exact le_trans (by omega) (ih (c + 1))

theorem next_prime_gt (n : Nat) : n < next_prime n :=
  lt_of_lt_of_le (Nat.lt_succ_self n) (nextPrimeGo_ge n (n + 1))

theorem isPrime_iff {n : Nat} : isPrime n = true ↔ Nat.Prime n := by
  unfold isPrime
  rw [Nat.prime_def_lt']
  simp only [Bool.and_eq_true, decide_eq_true_eq, List.all_eq_true, List.mem_range]
  constructor
  · rintro ⟨h2, hall⟩
    refine ⟨h2, fun m hm hmn hdvd => ?_⟩
    have hm2 : m - 2 < n - 2 := by omega
    have := hall (m - 2) hm2
    rw [show m - 2 + 2 = m by omega] at this
    exact this (Nat.mod_eq_zero_of_dvd hdvd)
  · rintro ⟨h2, hall⟩
    refine ⟨h2, fun i hi hmod => ?_⟩
    exact hall (i + 2) (by omega) (by omega) (Nat.dvd_of_mod_eq_zero hmod)

theorem nextPrimeGo_least :
    ∀ f c, (∃ p, c ≤ p ∧ p < c + f ∧ Nat.Prime p) →
      Nat.Prime (nextPrimeGo f c) ∧ c ≤ nextPrimeGo f c ∧
        ∀ q, c ≤ q → q < nextPrimeGo f c → ¬ Nat.Prime q := by
  intro f
  induction f with
  | zero =>
    intro c h
    exfalso
    obtain ⟨p, hp1, hp2, -⟩ := h
    omega
  | succ g ih =>
    intro c h
    unfold nextPrimeGo
    by_cases hc : isPrime c
    · rw [if_pos hc]
      exact ⟨isPrime_iff.mp hc, le_refl c,
        fun q h1 h2 => absurd (lt_of_le_of_lt h1 h2) (lt_irrefl c)⟩
    · rw [if_neg hc]
      have hex : ∃ p, c + 1 ≤ p ∧ p < (c + 1) + g ∧ Nat.Prime p := by
        obtain ⟨p, hp1, hp2, hp3⟩ := h
        refine ⟨p, ?_, by omega, hp3⟩
        rcases Nat.eq_or_lt_of_le hp1 with heq | hlt
        · exact absurd (isPrime_iff.mpr (heq ▸ hp3)) hc
        · omega
      obtain ⟨h1, h2, h3⟩ := ih (c + 1) hex
      refine ⟨h1, by omega, fun q hq1 hq2 => ?_⟩
      rcases Nat.eq_or_lt_of_le hq1 with heq | hlt
      · exact fun hp => hc (isPrime_iff.mpr (heq ▸ hp))
      · exact h3 q (by omega) hq2

theorem next_prime_least {n : Nat} (hn : 1 ≤ n) :
    Nat.Prime (next_prime n) ∧ n < next_prime n ∧
      ∀ q, n < q → q < next_prime n → ¬ Nat.Prime q := by
  obtain ⟨p, hp, hp1, hp2⟩ := Nat.exists_prime_lt_and_le_two_mul n (by omega)
  unfold next_prime
  obtain ⟨g1, g2, g3⟩ := nextPrimeGo_least n (n + 1) ⟨p, by omega, by omega, hp⟩
  exact ⟨g1, by omega, fun q hq1 hq2 => g3 q (by omega) hq2⟩

theorem push_chain {hashFn : T → Nat} {s s' : StackSet T} {k : T} {il : List (Nat × T)}
    (hc : Chain s.table s.top_index il) (h : push hashFn s k = some s') :
    ∃ i, Chain s'.table s'.top_index ((i, k) :: il) ∧ s.capacity ≤ s'.capacity := by
  unfold push push_at at h
  match hp : probe s.table (hash hashFn s k) with
  | none => rw [hp] at h; exact absurd h (by simp)
  | some i =>
    rw [hp] at h
    simp only [Option.some.injEq] at h
    have hempty : s.table[i]? = some none := probeGo_empty _ _ _ _ hp
    have hlt : i < s.table.length := by
      obtain ⟨hl, -⟩ := List.getElem?_eq_some.mp hempty
      exact hl
    have hnot : ∀ p ∈ il, p.1 ≠ i := by
      intro p hp' heq
      obtain ⟨pr, hocc⟩ := hc.occupied p hp'
      rw [heq, hempty] at hocc
      simp at hocc
    have hchain : Chain (s.table.set i (some (k, s.top_index))) (some i) ((i, k) :: il) :=
      Chain.cons (List.getElem?_set_eq_of_lt _ hlt) (hc.set_of_notmem _ hnot) hnot
    refine ⟨i, ?_⟩
    split at h
    · subst h
      exact ⟨hchain.append _, le_trans (by omega) (le_of_lt (next_prime_gt (s.capacity * 2)))⟩
    · subst h
      exact ⟨hchain, le_refl _⟩

theorem push_count_capacity {hashFn : T → Nat} {s s' : StackSet T} {k : T}
    (h : push hashFn s k = some s') :
    s'.count = s.count + 1 ∧
      (s.capacity / 2 ≤ s.count + 1 → s'.capacity = next_prime (s.capacity * 2)) ∧
      (s.count + 1 < s.capacity / 2 → s'.capacity = s.capacity) := by
  unfold push push_at at h
  match hp : probe s.table (hash hashFn s k) with
  | none => rw [hp] at h; exact absurd h (by simp)
  | some i =>
    rw [hp] at h
    simp only [Option.some.injEq] at h
    split at h
    next hcond =>
      subst h
      exact ⟨rfl, fun _ => rfl, fun habs => absurd hcond (by omega)⟩
    next hcond =>
      subst h
      exact ⟨rfl, fun habs => absurd habs hcond, fun _ => rfl⟩

theorem pop_of_chain {s : StackSet T} {il : List (Nat × T)} {i : Nat} {k : T}
    (hc : Chain s.table s.top_index ((i, k) :: il)) :
    ∃ s', pop s = some (k, s') ∧ Chain s'.table s'.top_index il ∧
      s'.capacity = s.capacity ∧ s'.count = s.count ∧ s'.table = s.table.set i none := by
  generalize ht : s.top_index = t at hc
  cases hc with
  | @cons i₂ k₂ pred l₂ hslot hrest hfresh =>
    refine ⟨{ s with table := s.table.set i none, top_index := pred }, ?_, ?_, rfl, rfl, rfl⟩
    · simp only [pop, ht, hslot]
    · exact hrest.set_of_notmem none hfresh

theorem pop_inv {s s' : StackSet T} {k : T} {il : List (Nat × T)}
    (hchain : Chain s.table s.top_index il) (hp : pop s = some (k, s')) :
    (∃ il', Chain s'.table s'.top_index il') ∧ s'.capacity = s.capacity ∧
      s'.count = s.count := by
  match ht : s.top_index with
  | none => simp only [pop, ht] at hp; exact absurd hp (by simp)
  | some i =>
    simp only [pop, ht] at hp
    match hs : s.table[i]? with
    | none => simp only [hs] at hp; exact absurd hp (by simp)
    | some none => simp only [hs] at hp; exact absurd hp (by simp)
    | some (some (k₀, pred)) =>
      simp only [hs, Option.some.injEq, Prod.mk.injEq] at hp
      obtain ⟨hk, hs'⟩ := hp
      rw [ht] at hchain
      cases hchain with
      | cons hslot hrest hfresh =>
        rw [hs] at hslot
        simp only [Option.some.injEq, Prod.mk.injEq] at hslot
        obtain ⟨hk₁, hpred₁⟩ := hslot
        subst hs'
        subst hpred₁
        exact ⟨⟨_, hrest.set_of_notmem none hfresh⟩, rfl, rfl⟩

theorem pushList_chain {hashFn : T → Nat} :
    ∀ {ks : List T} {s s' : StackSet T} {il : List (Nat × T)},
      Chain s.table s.top_index il → pushList hashFn s ks = some s' →
      ∃ il', Chain s'.table s'.top_index il' ∧
        il'.map Prod.snd = ks.reverse ++ il.map Prod.snd ∧ s.capacity ≤ s'.capacity := by
  intro ks
  induction ks with
  | nil =>
    intro s s' il hc h
    simp only [pushList, Option.some.injEq] at h
    subst h
    exact ⟨il, hc, by simp, le_refl _⟩
  | cons k ks ih =>
    intro s s' il hc h
    unfold pushList at h
    match hp : push hashFn s k with
    | none => rw [hp] at h; exact absurd h (by simp)
    | some s₁ =>
      rw [hp] at h
      obtain ⟨i, hchain, hcap⟩ := push_chain hc hp
      obtain ⟨il', hc', hmap, hcap'⟩ := ih hchain h
      refine ⟨il', hc', ?_, le_trans hcap hcap'⟩
      rw [hmap]
      simp

theorem popN_chain {il : List (Nat × T)} :
    ∀ {s : StackSet T}, Chain s.table s.top_index il →
      ∃ s', popN s il.length = some (il.map Prod.snd, s') ∧ s'.top_index = none ∧
        s'.capacity = s.capacity := by
  induction il with
  | nil =>
    intro s hc
    have ht : s.top_index = none := by
      generalize hx : s.top_index = t at hc ⊢
      cases hc
      rfl
    exact ⟨s, rfl, ht, rfl⟩
  | cons p il ih =>
    intro s hc
    obtain ⟨i, k⟩ := p
    obtain ⟨s₁, hpop, hc₁, hcap, hcount, htab⟩ := pop_of_chain hc
    obtain ⟨s', hpn, ht, hcap'⟩ := ih hc₁
    refine ⟨s', ?_, ht, by rw [hcap', hcap]⟩
    simp only [List.length_cons, popN, hpop, hpn, List.map_cons]

theorem reachable_inv {hashFn : T → Nat} {s : StackSet T} (h : Reachable hashFn s) :
    Nat.Prime s.capacity ∧ 11 ≤ s.capacity ∧ ∃ il, Chain s.table s.top_index il := by
  induction h with
  | base =>
    refine ⟨?_, ?_, ⟨[], Chain.nil _⟩⟩
    · show Nat.Prime 11
      norm_num
    · exact le_refl _
  | @push_step s₀ s₁ k hr hp ih =>
    obtain ⟨hprime, hge, il, hchain⟩ := ih
    obtain ⟨i, hchain', -⟩ := push_chain hchain hp
    obtain ⟨hcnt, hcap1, hcap2⟩ := push_count_capacity hp
    refine ⟨?_, ?_, ⟨_, hchain'⟩⟩
    all_goals
      obtain ⟨hnp, hlt, -⟩ := next_prime_least (n := s₀.capacity * 2) (by omega)
      by_cases hcond : s₀.capacity / 2 ≤ s₀.count + 1
    · rw [hcap1 hcond]; exact hnp
    · rw [hcap2 (by omega)]; exact hprime
    · rw [hcap1 hcond]; omega
    · rw [hcap2 (by omega)]; exact hge
  | @pop_step s₀ s₁ k hr hp ih =>
    obtain ⟨hprime, hge, il, hchain⟩ := ih
    obtain ⟨hchain', hcap, hcnt⟩ := pop_inv hchain hp
    exact ⟨hcap ▸ hprime, hcap ▸ hge, hchain'⟩

theorem sOne_reachable : Reachable (fun k => k) sOne :=
  @Reachable.push_step Nat (fun k => k) new sOne 0 Reachable.base rfl

/-- C1: the claim fails on the code.  With the identity hasher, pushing the
five distinct keys 0, 1, 2, 3, 15 (the fifth push triggers the resize from
capacity 11 to 23; key 15 was stored in slot 15 % 11 = 4) leaves `contains 15`
returning `false`, although 15 was pushed and never popped: after the resize
the probe for 15 starts at 15 % 23 = 15, an empty slot. -/
theorem contains_lost_after_resize :
    (pushList (fun k => k) (new : StackSet Nat) [0, 1, 2, 3, 15]).map
      (fun s => (s.capacity, contains (fun k => k) s 15)) = some (23, some false) := by
  decide

/-- C2: the claim fails on the code.  `resize` does not re-insert entries: in
the run of C1 the table after the resize differs from the table produced by
pushing the same keys into a fresh container of the new capacity 23 (the
resized table keeps key 15 at slot 4 = 15 % 11 and leaves slot 15 empty),
while counts and capacities agree. -/
theorem resize_no_rehash :
    ((pushList (fun k => k) (new : StackSet Nat) [0, 1, 2, 3, 15]).bind fun s =>
      (pushList (fun k => k) (mkEmpty 23 : StackSet Nat) [0, 1, 2, 3, 15]).map fun t =>
        (decide (s.capacity = t.capacity), decide (s.table = t.table),
          s.table[4]?, s.table[15]?, t.table[4]?, t.table[15]?)) =
      some (true, false, some (some (15, some 3)), some none,
        some none, some (some (15, some 3))) := by
  rfl

/-- C3: the claim fails on the code.  The probe index is incremented without
wrapping: with a hasher sending every key to 10, pushing key 0 (stored in slot
10) and then asking `contains 1` probes slot 10 (occupied by 0), advances the
index to 11 = capacity, and the source indexes out of bounds (a panic,
modelled by `none`) instead of wrapping into `[0, capacity)`. -/
theorem probe_out_of_bounds :
    (push (fun _ => 10) (new : StackSet Nat) 0).map
      (fun s => contains (fun _ => 10) s 1) = some none := by
  decide

/-- C4: the claim fails on the code.  `pop` does not decrement `count`: after
push(0) then pop() on a fresh container the table has zero occupied slots and
`top_index` is `none`, yet `count` is still 1, so `count` does not equal the
number of occupied slots and `top_index = none` does not coincide with
`count = 0`. -/
theorem pop_does_not_decrement_count :
    ((push (fun k => k) (new : StackSet Nat) 0).bind fun s =>
      (pop s).map fun p => (p.2.count, countOccupied p.2.table, p.2.top_index)) =
      some (1, 0, none) := by
  decide

/-- C5: for every hasher and every list of pairwise distinct keys, if pushing
them all into a fresh container succeeds, then the next `length` pops return
exactly the keys in reverse push order, after which the container is empty and
its capacity equals the final capacity, which is at least the initial
capacity 11 (capacity never shrinks). -/
theorem lifo_round_trip (hashFn : T → Nat) (ks : List T) (hnd : ks.Nodup)
    (s : StackSet T) (h : pushList hashFn StackSet.new ks = some s) :
    ∃ s', popN s ks.length = some (ks.reverse, s') ∧ is_empty s' = true ∧
      INITIAL_CAPACITY ≤ s'.capacity ∧ s'.capacity = s.capacity := by
  have hchain0 : Chain (new : StackSet T).table (new : StackSet T).top_index [] :=
    Chain.nil _
  obtain ⟨il, hchain, hmap, hcap⟩ := pushList_chain hchain0 h
  rw [List.map_nil, List.append_nil] at hmap
  have hlen : il.length = ks.length := by
    have hl := congrArg List.length hmap
    simpa using hl
  obtain ⟨s', hpn, ht, hcap'⟩ := popN_chain hchain
  rw [hmap, hlen] at hpn
  refine ⟨s', hpn, ?_, ?_, hcap'⟩
  · simp [is_empty, ht]
  · rw [hcap']
    exact hcap

/-- Witness for C5 at the concrete input: keys [0, 1, 2] with the identity
hasher; the three pops return [2, 1, 0]. -/
theorem lifo_round_trip_witness :
    List.Nodup [0, 1, 2] ∧
    pushList (fun k => k) (new : StackSet Nat) [0, 1, 2] = some sThree ∧
    ∃ s', popN sThree 3 = some ([2, 1, 0], s') ∧ is_empty s' = true ∧
      INITIAL_CAPACITY ≤ s'.capacity ∧ s'.capacity = sThree.capacity :=
  ⟨by decide, rfl, lifo_round_trip (fun k => k) [0, 1, 2] (by decide) sThree rfl⟩

/-- C6: on every reachable container state, `pop` fails (the modelled panic)
exactly when the container is empty; on a non-empty container, with
`top_index = some i`, it returns the key stored in slot `i`, clears exactly
that slot (slot `i` becomes empty and every other slot is unchanged), and
moves `top_index` to the predecessor stored in slot `i`. -/
theorem pop_fails_iff_empty (hashFn : T → Nat) (s : StackSet T)
    (hr : Reachable hashFn s) :
    (pop s = none ↔ is_empty s = true) ∧
    (∀ i, s.top_index = some i → ∃ k pred,
      s.table[i]? = some (some (k, pred)) ∧
      pop s = some (k, { s with table := s.table.set i none, top_index := pred }) ∧
      (s.table.set i none)[i]? = some none ∧
      ∀ j, j ≠ i → (s.table.set i none)[j]? = s.table[j]?) := by
  obtain ⟨-, -, il, hchain⟩ := reachable_inv hr
  constructor
  · constructor
    · intro hnone
      match ht : s.top_index with
      | none => simp [is_empty, ht]
      | some i =>
        rw [ht] at hchain
        cases hchain with
        | cons hslot hrest hfresh =>
          simp only [pop, ht, hslot] at hnone
          exact Option.noConfusion hnone
    · intro hemp
      have ht : s.top_index = none := Option.isNone_iff_eq_none.mp hemp
      simp [pop, ht]
  · intro i ht
    rw [ht] at hchain
    cases hchain with
    | cons hslot hrest hfresh =>
      have hlt : i < s.table.length := by
        obtain ⟨hl, -⟩ := List.getElem?_eq_some.mp hslot
        exact hl
      refine ⟨_, _, hslot, ?_, ?_, ?_⟩
      · simp only [pop, ht, hslot]
      · exact List.getElem?_set_eq_of_lt _ hlt
      · intro j hj
        exact List.getElem?_set_ne (Ne.symm hj)

/-- Witness for C6 at the concrete reachable state `sOne` (one key pushed). -/
theorem pop_fails_iff_empty_witness :
    (pop sOne = none ↔ is_empty sOne = true) ∧
    (∀ i, sOne.top_index = some i → ∃ k pred,
      sOne.table[i]? = some (some (k, pred)) ∧
      pop sOne = some (k, { sOne with table := sOne.table.set i none, top_index := pred }) ∧
      (sOne.table.set i none)[i]? = some none ∧
      ∀ j, j ≠ i → (sOne.table.set i none)[j]? = sOne.table[j]?) :=
  pop_fails_iff_empty (fun k => k) sOne sOne_reachable

/-- C7: every reachable state has a prime capacity of at least 11; and for
every successful push from such a state, `count` goes up by one and the resize
triggers, after the insertion and increment, exactly when the new count is at
least half the capacity: in that case the new capacity is
`next_prime (capacity * 2)`, which is the smallest prime strictly greater than
twice the old capacity, and otherwise the capacity is unchanged; the new
state's capacity is again a prime at least 11. -/
theorem push_resize_policy (hashFn : T → Nat) (s : StackSet T)
    (hr : Reachable hashFn s) :
    Nat.Prime s.capacity ∧ 11 ≤ s.capacity ∧
    ∀ s' k, push hashFn s k = some s' →
      s'.count = s.count + 1 ∧
      (s.capacity / 2 ≤ s.count + 1 → s'.capacity = next_prime (s.capacity * 2)) ∧
      (s.count + 1 < s.capacity / 2 → s'.capacity = s.capacity) ∧
      Nat.Prime (next_prime (s.capacity * 2)) ∧
      s.capacity * 2 < next_prime (s.capacity * 2) ∧
      (∀ q, s.capacity * 2 < q → q < next_prime (s.capacity * 2) → ¬ Nat.Prime q) ∧
      Nat.Prime s'.capacity ∧ 11 ≤ s'.capacity := by
  obtain ⟨hp1, hge1, -⟩ := reachable_inv hr
  refine ⟨hp1, hge1, fun s' k h => ?_⟩
  obtain ⟨hp2, hge2, -⟩ := reachable_inv (Reachable.push_step hr h)
  obtain ⟨hc1, hc2, hc3⟩ := push_count_capacity h
  obtain ⟨hq1, hq2, hq3⟩ := next_prime_least (n := s.capacity * 2) (by omega)
  exact ⟨hc1, hc2, hc3, hq1, hq2, hq3, hp2, hge2⟩

/-- Witness for C7 at the fresh container (reachable by construction) and, for
the push clause, at the concrete push of key 0 producing `sOne`
(no resize: 1 < 11 / 2). -/
theorem push_resize_policy_witness :
    Nat.Prime (11 : Nat) ∧ (11 : Nat) ≤ 11 ∧
    (sOne.count = 1 ∧
      (11 / 2 ≤ 0 + 1 → sOne.capacity = next_prime 22) ∧
      (0 + 1 < 11 / 2 → sOne.capacity = 11) ∧
      Nat.Prime (next_prime 22) ∧
      22 < next_prime 22 ∧
      (∀ q, 22 < q → q < next_prime 22 → ¬ Nat.Prime q) ∧
      Nat.Prime sOne.capacity ∧ 11 ≤ sOne.capacity) :=
  ⟨(push_resize_policy (fun k => k) new Reachable.base).1,
    (push_resize_policy (fun k => k) new Reachable.base).2.1,
    (push_resize_policy (fun k => k) new Reachable.base).2.2 sOne 0 rfl⟩

/-- C9: on every reachable state, if `top_index` is `some i` then slot `i` is
occupied, and the predecessor links from it form a chain of occupied slots
ending in `none` (the `Chain` predicate); consequently on a non-empty
container neither `top` nor `pop` hits a panic path. -/
theorem reachable_chain_invariant (hashFn : T → Nat) (s : StackSet T)
    (hr : Reachable hashFn s) :
    (∀ i, s.top_index = some i → ∃ k pred, s.table[i]? = some (some (k, pred))) ∧
    (∃ il, Chain s.table s.top_index il) ∧
    (is_empty s = false → top s ≠ none ∧ pop s ≠ none) := by
  obtain ⟨-, -, il, hchain⟩ := reachable_inv hr
  refine ⟨?_, ⟨il, hchain⟩, ?_⟩
  · intro i ht
    rw [ht] at hchain
    cases hchain with
    | cons hslot hrest hfresh => exact ⟨_, _, hslot⟩
  · intro hne
    match ht : s.top_index with
    | none => simp [is_empty, ht] at hne
    | some i =>
      rw [ht] at hchain
      cases hchain with
      | cons hslot hrest hfresh =>
        constructor
        · simp [top, ht, hslot]
        · simp [pop, ht, hslot]

/-- Witness for C9 at the concrete reachable state `sOne`. -/
theorem reachable_chain_invariant_witness :
    (∀ i, sOne.top_index = some i → ∃ k pred, sOne.table[i]? = some (some (k, pred))) ∧
    (∃ il, Chain sOne.table sOne.top_index il) ∧
    (is_empty sOne = false → top sOne ≠ none ∧ pop sOne ≠ none) :=
  reachable_chain_invariant (fun k => k) sOne sOne_reachable

/-- C10: `resize` leaves `count` and `top_index` unchanged, sets the capacity
to `next_prime (capacity * 2)`, and its only effect on the table is appending
empty slots: the new table is the old one followed by `none`s, every index
below the old length reads the same slot as before, and every chain of
predecessor links valid in the old table is still valid afterwards. -/
theorem resize_frame (s : StackSet T) :
    (resize s).count = s.count ∧
    (resize s).top_index = s.top_index ∧
    (resize s).capacity = next_prime (s.capacity * 2) ∧
    (resize s).table = s.table ++
      List.replicate (next_prime (s.capacity * 2) - s.capacity) none ∧
    (∀ i, i < s.table.length → (resize s).table[i]? = s.table[i]?) ∧
    (∀ t il, Chain s.table t il → Chain (resize s).table t il) :=
  ⟨rfl, rfl, rfl, rfl, fun i hi => List.getElem?_append_left hi,
    fun t il hc => hc.append _⟩

/-- Witness for C10 at the fresh container: slot 3 is unchanged by the resize
and the empty chain stays valid. -/
theorem resize_frame_witness :
    (resize (new : StackSet Nat)).count = 0 ∧
    (resize (new : StackSet Nat)).table[3]? = some none ∧
    Chain (resize (new : StackSet Nat)).table none ([] : List (Nat × Nat)) :=
  ⟨(resize_frame (new : StackSet Nat)).1, by
    have h := (resize_frame (new : StackSet Nat)).2.2.2.2.1 3 (by decide)
    rw [h]
    rfl,
    (resize_frame (new : StackSet Nat)).2.2.2.2.2 none [] (Chain.nil _)⟩

end StackSet

theorem hasCycleGo_stuck : ∀ fuel,
    hasCycleGo (fun k => k) oneVertexGraph fuel sOne [true] = none := by
  intro fuel
  induction fuel with
  | zero => rfl
  | succ f ih => exact ih

/-- C8: the claim fails on the code.  `has_cycle` never pops and `continue`s
with an unchanged state once the top vertex is marked seen, so on the acyclic
1-vertex graph with no edges the while loop runs forever: for every iteration
bound `fuel` the bounded model returns no result.  (The 0-vertex graph does
return `false`, and the 3-cycle does report a cycle, but termination fails in
general.) -/
theorem has_cycle_diverges (fuel : Nat) :
    has_cycle (fun k => k) fuel oneVertexGraph = none := by
  cases fuel with
  | zero => rfl
  | succ f => exact hasCycleGo_stuck f
